import Mathlib

/-!
A shallow embedding of `src/csv_to_json.py` (`generate_json`), the schema-driven
CSV-to-JSON converter, together with theorems settling the frozen claims about it.

Modeling conventions:
* Python dicts are insertion-ordered association lists (`alGet` / `alSet`:
  update-in-place keeps the position, a new key is appended — CPython semantics).
* An input row is the record produced by `csv.DictReader` for one CSV line:
  an association list from header name to raw string value.
* Python `float` values are modeled as exact rationals (`Rat`); `float(s)` /
  `int(s)` are modeled for finite decimal literals (optional sign, digits,
  fraction, exponent, surrounding whitespace).  Special values (`inf`, `nan`)
  and digit-grouping underscores are outside the model; no claim touches them.
* `str.lower` / `str.strip` are modeled at ASCII scope (`Char.toLower`,
  `Char.isWhitespace`), matching Python on ASCII data.
* Exceptions (`ValueError` from `float`/`int`, `KeyError` from dict lookup and
  `str.format`, `AttributeError` from `None.lower()`) become the `Err` type in
  an `Except` monad; the run aborts at the first error, like the script.
* Python's `list.sort(key=...)` is a stable sort; its result is the unique
  stable sorted permutation, which the insertion sort `stableSortBy` computes.
-/

/-- The error classes `generate_json` can raise while processing rows and
emitting series: `KeyError` (dict subscript or `str.format` placeholder),
`ValueError` (`float()`/`int()` on an unparsable string), `AttributeError`
(`None.lower()` when the schema has no `points` section). -/
inductive Err where
  | keyError : String → Err
  | valueError : String → Err
  | attrError : Err
deriving DecidableEq, Repr

deriving instance DecidableEq for Except

/-- A Python scalar as it flows through `generate_json`: a string, a float
(modeled as an exact rational), or an int. -/
inductive Value where
  | str : String → Value
  | num : Rat → Value
  | int : Int → Value
deriving DecidableEq, Repr

/-- Whitespace-trim a character list on both ends (Python `str.strip()`). -/
def trimChars (cs : List Char) : List Char :=
  ((cs.dropWhile Char.isWhitespace).reverse.dropWhile Char.isWhitespace).reverse

/-- Python `str.strip()`. -/
def strTrim (s : String) : String := String.mk (trimChars s.data)

/-- Python `str.lower()` (ASCII scope). -/
def strLower (s : String) : String := String.mk (s.data.map Char.toLower)

/-- Lexicographic (code-point) `≤` on character lists: the order Python uses
to compare the strings `x[0]` when sorting points. -/
def lexLe : List Char → List Char → Bool
  | [], _ => true
  | _ :: _, [] => false
  | a :: as, b :: bs => if a < b then true else if b < a then false else lexLe as bs

/-- Decimal digits to their value. -/
def digitsVal (ds : List Char) : Nat :=
  ds.foldl (fun n c => n * 10 + (c.toNat - 48)) 0

/-- Strip one optional leading sign, returning the sign as `±1`. -/
def splitSign : List Char → Int × List Char
  | '-' :: t => (-1, t)
  | '+' :: t => (1, t)
  | t => (1, t)

/-- `m · 10 ^ e` as a rational. -/
def ratScale (m : Int) (e : Int) : Rat :=
  if 0 ≤ e then Rat.divInt (m * 10 ^ e.toNat) 1 else Rat.divInt m (10 ^ (-e).toNat)

/-- Python `float(s)` restricted to finite decimal literals: optional
surrounding whitespace, optional sign, digits with optional fraction and
exponent.  `none` models the `ValueError` raise. -/
def pyFloat (s : String) : Option Rat :=
  let cs := trimChars s.data
  let (sgn, cs1) := splitSign cs
  let ip := cs1.takeWhile Char.isDigit
  let r1 := cs1.dropWhile Char.isDigit
  let (fp, r2) := match r1 with
    | '.' :: t => (t.takeWhile Char.isDigit, t.dropWhile Char.isDigit)
    | _ => ([], r1)
  if ip.isEmpty && fp.isEmpty then none
  else
    let m : Int := sgn * (digitsVal (ip ++ fp) : Int)
    let k : Int := fp.length
    match r2 with
    | [] => some (ratScale m (-k))
    | e :: t =>
      if e = 'e' ∨ e = 'E' then
        let (esgn, t1) := splitSign t
        let ed := t1.takeWhile Char.isDigit
        let r3 := t1.dropWhile Char.isDigit
        if ed.isEmpty ∨ r3 ≠ [] then none
        else some (ratScale m (esgn * (digitsVal ed : Int) - k))
      else none

/-- Python `int(s)`: optional surrounding whitespace, optional sign, decimal
digits.  `none` models the `ValueError` raise. -/
def pyInt (s : String) : Option Int :=
  let cs := trimChars s.data
  let (sgn, cs1) := splitSign cs
  if cs1.isEmpty || !(cs1.all Char.isDigit) then none
  else some (sgn * (digitsVal cs1 : Int))

/-- `transform_funcs.get(tag, lambda x: x)` applied to a value: tag `"float"`
parses a float, `"int"` an int, the `None` key and any unknown tag fall back
to the identity (the dict lookup's default). -/
def applyTransform (tag : Option String) (v : String) : Except Err Value :=
  match tag with
  | some "float" =>
    match pyFloat v with
    | some q => .ok (.num q)
    | none => .error (.valueError v)
  | some "int" =>
    match pyInt v with
    | some n => .ok (.int n)
    | none => .error (.valueError v)
  | some _ => .ok (.str v)
  | none => .ok (.str v)

/-- Python dict lookup (`d.get(k)` / `k in d`): first (unique) matching key. -/
def alGet {κ α : Type} [DecidableEq κ] : List (κ × α) → κ → Option α
  | [], _ => none
  | (k', v) :: t, k => if k' = k then some v else alGet t k

/-- Python dict assignment `d[k] = v`: update in place keeps the entry's
position, a new key is appended at the end (insertion order). -/
def alSet {κ α : Type} [DecidableEq κ] : List (κ × α) → κ → α → List (κ × α)
  | [], k, v => [(k, v)]
  | (k', v') :: t, k, v => if k' = k then (k', v) :: t else (k', v') :: alSet t k v

/-- One raw `csv.DictReader` record: header name → raw string value. -/
abbrev RawRow := List (String × String)

/-- `{k.lower(): v.strip() for k, v in row.items()}` — the dict comprehension
normalizing column names and values. -/
def lowerTrimRow (row : RawRow) : RawRow :=
  row.foldl (fun acc kv => alSet acc (strLower kv.1) (strTrim kv.2)) []

/-- The mappings loop: for each `(col, map_dict)` of the schema's `mappings`,
if `col.lower()` is a column of the row, replace its value by
`map_dict.get(value, value)`. -/
def applyMappings (ms : List (String × List (String × String))) (r : RawRow) : RawRow :=
  ms.foldl (fun acc cm =>
    let cl := strLower cm.1
    match alGet acc cl with
    | some v => alSet acc cl ((alGet cm.2 v).getD v)
    | none => acc) r

/-- The row normalizer: lower-case the keys, strip the values, then apply the
schema's code→text mapping tables. -/
def normalizeRow (ms : List (String × List (String × String))) (row : RawRow) : RawRow :=
  applyMappings ms (lowerTrimRow row)

/-- One entry of the schema's `fields` section: `{"source": ..., "transform": ...}`.
`source` is read with `cfg["source"]`, `transform` with `cfg.get("transform")`. -/
structure FieldCfg where
  source : String
  transform : Option String
deriving DecidableEq, Repr

/-- The schema's `points` section as the code reads it: `points_schema.get("x")`,
`.get("y")`, `.get("transform")`.  An absent `points` section is the empty
dict, i.e. all three lookups give `none`. -/
structure PointsCfg where
  x : Option String
  y : Option String
  transform : Option String
deriving DecidableEq, Repr

/-- The schema after the five defaulted lookups at the top of `generate_json`:
`group_by` (default `[]`), `fields` (default `{}`), `points` (default `{}`),
`id_template` (default `""`), `mappings` (default `{}`). -/
structure Schema where
  group_by : List String
  fields : List (String × FieldCfg)
  points : PointsCfg
  id_template : String
  mappings : List (String × List (String × String))
deriving DecidableEq, Repr

/-- The field-mapping loop, accumulator style: for each declared output field,
`fields[key] = transform(row.get(cfg["source"].lower(), ""))`. -/
def deriveFieldsFrom (row : RawRow) (acc : List (String × Value)) :
    List (String × FieldCfg) → Except Err (List (String × Value))
  | [] => .ok acc
  | kc :: rest => do
    let tv ← applyTransform kc.2.transform ((alGet row (strLower kc.2.source)).getD "")
    deriveFieldsFrom row (alSet acc kc.1 tv) rest

/-- Derived fields of one normalized row (the `fields` dict built per row). -/
def deriveFields (fs : List (String × FieldCfg)) (row : RawRow) :
    Except Err (List (String × Value)) :=
  deriveFieldsFrom row [] fs

/-- `key = tuple(fields[g] for g in group_by)`: the grouping key; a name absent
from the derived fields raises `KeyError` at the first offender. -/
def computeKey (gb : List String) (fields : List (String × Value)) :
    Except Err (List Value) :=
  match gb with
  | [] => .ok []
  | g :: gs =>
    match alGet fields g with
    | some v => (computeKey gs fields).map (v :: ·)
    | none => .error (.keyError g)

/-- One accumulated series: `{"points": [...], "fields": {...}}`. -/
structure Series where
  points : List (String × Value)
  fields : List (String × Value)
deriving DecidableEq, Repr

/-- The aggregation dict `series_dict`, keyed by grouping tuple. -/
abbrev SeriesDict := List (List Value × Series)

/-- The `series_dict[key]["fields"]` access plus the falsy-guarded first-write:
the `defaultdict` creates `{"points": [], "fields": {}}` on a missing key, and
`if not series_dict[key]["fields"]: series_dict[key]["fields"] = fields`. -/
def seriesAccess (sd : SeriesDict) (key : List Value) (fields : List (String × Value)) :
    SeriesDict :=
  let entry := (alGet sd key).getD ⟨[], []⟩
  alSet sd key (if entry.fields.isEmpty then { entry with fields := fields } else entry)

/-- `points_schema.get("x")` followed by `.lower()`: calling `.lower()` on the
`None` that an absent key returns raises `AttributeError`. -/
def optAttr : Option String → Except Err String
  | some s => .ok s
  | none => .error .attrError

/-- The point block of the row loop: look up `x`/`y` raw values (empty-string
default), skip the point if either is falsy (empty), otherwise transform `y`
and append `[x_val, y_val]` to the series' points. -/
def addPoint (schema : Schema) (sd : SeriesDict) (key : List Value) (nrow : RawRow) :
    Except Err SeriesDict := do
  let xc ← optAttr schema.points.x
  let yc ← optAttr schema.points.y
  let xVal := (alGet nrow (strLower xc)).getD ""
  let yVal := (alGet nrow (strLower yc)).getD ""
  if xVal = "" ∨ yVal = "" then
    pure sd
  else do
    let yTv ← applyTransform schema.points.transform yVal
    let entry := (alGet sd key).getD ⟨[], []⟩
    pure (alSet sd key { entry with points := entry.points ++ [(xVal, yTv)] })

/-- One iteration of the reading loop of `generate_json`: normalize the row,
derive the fields, compute the grouping key, capture first-seen fields, then
append the row's point (if any). -/
def stepRow (schema : Schema) (sd : SeriesDict) (row : RawRow) : Except Err SeriesDict := do
  let nrow := normalizeRow schema.mappings row
  let fields ← deriveFields schema.fields nrow
  let key ← computeKey schema.group_by fields
  addPoint schema (seriesAccess sd key fields) key nrow

/-- The reading loop from a given aggregation state. -/
def processRowsFrom (schema : Schema) (sd : SeriesDict) : List RawRow → Except Err SeriesDict
  | [] => .ok sd
  | r :: rs => do processRowsFrom schema (← stepRow schema sd r) rs

/-- The whole reading loop of `generate_json`: fold `stepRow` over the input
rows starting from the empty `series_dict`. -/
def processRows (schema : Schema) (rows : List RawRow) : Except Err SeriesDict :=
  processRowsFrom schema [] rows

/-- Derived fields of a raw row, as the loop computes them (normalize, then map
the schema's fields section over the normalized row). -/
def rowFields (schema : Schema) (row : RawRow) : Except Err (List (String × Value)) :=
  deriveFields schema.fields (normalizeRow schema.mappings row)

/-- Grouping key of a raw row. -/
def rowKey (schema : Schema) (row : RawRow) : Except Err (List Value) := do
  computeKey schema.group_by (← rowFields schema row)

/-- Decidable test "this row's grouping key is `k`". -/
def rowHasKey (schema : Schema) (k : List Value) (row : RawRow) : Bool :=
  match rowKey schema row with
  | .ok k' => decide (k' = k)
  | .error _ => false

/-- The `"{"` character (written by code point to keep it out of string
interpolation syntax). -/
def lbrace : Char := Char.ofNat 123

/-- The `"}"` character. -/
def rbrace : Char := Char.ofNat 125

/-- An opening brace as a one-character string. -/
def lbs : String := String.singleton lbrace

/-- A closing brace as a one-character string. -/
def rbs : String := String.singleton rbrace

/-- Smallest exponent `e` with `den ∣ num * 10 ^ e`, searched with fuel (the
denominators reaching this function divide a power of ten, where the fuel
`den` is always sufficient). -/
def decExp (fuel num den : Nat) : Nat :=
  match fuel with
  | 0 => 0
  | f + 1 => if num % den = 0 then 0 else 1 + decExp f (num * 10) den

/-- Left-pad a string with zeros to the given length. -/
def padZeros (s : String) (n : Nat) : String :=
  String.mk (List.replicate (n - s.data.length) '0') ++ s

/-- Python `str()` of a float, on the exact-rational model: sign, integer part,
`"."`, fraction (`".0"` when integral).  Python switches to scientific
notation for very large or small magnitudes; this model always renders the
plain decimal expansion (the digits agree; no claim exercises that range). -/
def pyFloatRepr (q : Rat) : String :=
  let sgn := if q.num < 0 then "-" else ""
  let na := q.num.natAbs
  let e := decExp q.den na q.den
  if e = 0 then
    sgn ++ toString (na / q.den) ++ ".0"
  else
    let scaled := na * 10 ^ e / q.den
    sgn ++ toString (scaled / 10 ^ e) ++ "." ++ padZeros (toString (scaled % 10 ^ e)) e

/-- Python `str()` of a value, as `str.format` renders a substituted field. -/
def formatValue : Value → String
  | .str s => s
  | .int n => toString n
  | .num q => pyFloatRepr q

/-- Scanner state for `str.format`: literal text, inside a `{...}` placeholder
(accumulating the name in reverse), or just after a `'}'` in literal text. -/
inductive FmtMode where
  | lit : FmtMode
  | ph : List Char → FmtMode
  | closing : FmtMode

/-- The core of Python `str.format(**fields)` for the template subset the
schemas use: plain `{name}` placeholders and `{{`/`}}` escapes.  A placeholder
name absent from the field mapping raises `KeyError`; stray single braces
raise `ValueError`.  (Attribute/index/conversion/format-spec syntax inside a
placeholder is outside the model; the specs' templates are plain names.) -/
def fmtCore (fields : List (String × Value)) : List Char → FmtMode → Except Err String
  | [], .lit => .ok ""
  | [], .ph _ => .error (.valueError "Single brace encountered in format string")
  | [], .closing => .error (.valueError "Single brace encountered in format string")
  | c :: rest, .lit =>
    if c = lbrace then fmtCore fields rest (.ph [])
    else if c = rbrace then fmtCore fields rest .closing
    else (fun s => String.singleton c ++ s) <$> fmtCore fields rest .lit
  | c :: rest, .closing =>
    if c = rbrace then (fun s => rbs ++ s) <$> fmtCore fields rest .lit
    else .error (.valueError "Single brace encountered in format string")
  | c :: rest, .ph acc =>
    if c = lbrace then
      if acc.isEmpty then (fun s => lbs ++ s) <$> fmtCore fields rest .lit
      else .error (.valueError "unexpected brace in field name")
    else if c = rbrace then
      match alGet fields (String.mk acc.reverse) with
      | some v => (fun s => formatValue v ++ s) <$> fmtCore fields rest .lit
      | none => .error (.keyError (String.mk acc.reverse))
    else fmtCore fields rest (.ph (c :: acc))

/-- `id_template.format(**fields)`: render the series identifier. -/
def formatTemplate (tmpl : String) (fields : List (String × Value)) : Except Err String :=
  fmtCore fields tmpl.data .lit

/-- Lowercase hex digit. -/
def hexDigit (n : Nat) : Char :=
  if n < 10 then Char.ofNat (48 + n) else Char.ofNat (87 + n)

/-- Four lowercase hex digits, as in a JSON `\uXXXX` escape. -/
def hex4 (n : Nat) : String :=
  String.mk [hexDigit (n / 4096 % 16), hexDigit (n / 256 % 16),
             hexDigit (n / 16 % 16), hexDigit (n % 16)]

/-- One character under `json.dumps` string escaping (`ensure_ascii` default):
named escapes for the JSON control shorthands, `\uXXXX` (with surrogate pairs)
for other control or non-ASCII characters. -/
def jsonEscapeChar (c : Char) : String :=
  if c = '"' then "\\\""
  else if c = '\\' then "\\\\"
  else if c = '\n' then "\\n"
  else if c = '\t' then "\\t"
  else if c = '\r' then "\\r"
  else if c = Char.ofNat 8 then "\\b"
  else if c = Char.ofNat 12 then "\\f"
  else if c.toNat < 32 ∨ c.toNat > 126 then
    if c.toNat < 65536 then "\\u" ++ hex4 c.toNat
    else
      "\\u" ++ hex4 (55296 + (c.toNat - 65536) / 1024) ++
      "\\u" ++ hex4 (56320 + (c.toNat - 65536) % 1024)
  else String.singleton c

/-- `json.dumps` of a string. -/
def jsonStr (s : String) : String :=
  "\"" ++ String.join (s.data.map jsonEscapeChar) ++ "\""

/-- `json.dumps` of a scalar value. -/
def jsonValue : Value → String
  | .str s => jsonStr s
  | .int n => toString n
  | .num q => pyFloatRepr q

/-- One output series document `{"series_id": ..., "points": ..., "fields": ...}`. -/
structure SeriesDoc where
  series_id : String
  points : List (String × Value)
  fields : List (String × Value)
deriving DecidableEq, Repr

/-- Compact `json.dumps` of one `[x, y]` point (default separators). -/
def jsonPoint (p : String × Value) : String :=
  "[" ++ jsonStr p.1 ++ ", " ++ jsonValue p.2 ++ "]"

/-- Compact `json.dumps(series_json)`, the line-delimited wire format:
default separators `", "` and `": "`, keys in insertion order. -/
def jsonDumps (d : SeriesDoc) : String :=
  lbs ++ "\"series_id\": " ++ jsonStr d.series_id ++
  ", \"points\": [" ++ String.intercalate ", " (d.points.map jsonPoint) ++ "]" ++
  ", \"fields\": " ++ lbs ++
    String.intercalate ", " (d.fields.map (fun kv => jsonStr kv.1 ++ ": " ++ jsonValue kv.2)) ++
  rbs ++ rbs

/-- `json.dumps(series_json, indent=2)`, the array-mode wire format: each
nesting level indented by two more spaces, empty containers rendered inline. -/
def jsonDumpsIndent (d : SeriesDoc) : String :=
  let pts :=
    if d.points.isEmpty then "[]"
    else "[\n" ++ String.intercalate ",\n" (d.points.map (fun p =>
      "    [\n      " ++ jsonStr p.1 ++ ",\n      " ++ jsonValue p.2 ++ "\n    ]")) ++ "\n  ]"
  let flds :=
    if d.fields.isEmpty then lbs ++ rbs
    else lbs ++ "\n" ++ String.intercalate ",\n" (d.fields.map (fun kv =>
      "    " ++ jsonStr kv.1 ++ ": " ++ jsonValue kv.2)) ++ "\n  " ++ rbs
  lbs ++ "\n  \"series_id\": " ++ jsonStr d.series_id ++
  ",\n  \"points\": " ++ pts ++ ",\n  \"fields\": " ++ flds ++ "\n" ++ rbs

/-- Stable insertion of `x` into a sorted list: `x` goes after every already
placed element `y` with `le y x`, so equal keys keep their original order. -/
def insertLe {α : Type} (le : α → α → Bool) (x : α) : List α → List α
  | [] => [x]
  | y :: ys => if le y x then y :: insertLe le x ys else x :: y :: ys

/-- Stable sort by a total `Bool` order: the unique stable sorted permutation,
which is what Python's stable `list.sort` produces. -/
def stableSortBy {α : Type} (le : α → α → Bool) (l : List α) : List α :=
  l.foldl (fun acc x => insertLe le x acc) []

/-- The sort key of `data["points"].sort(key=lambda x: x[0])`: compare points
by their x component as strings (lexicographic by code point). -/
def pointLe (p q : String × Value) : Bool := lexLe p.1.data q.1.data

/-- `data["points"].sort(key=lambda x: x[0])`. -/
def sortPoints (ps : List (String × Value)) : List (String × Value) :=
  stableSortBy pointLe ps

/-- Finalize one series: sort its points, render `series_id` from the template
(a `KeyError` here aborts the run), keep the captured fields verbatim. -/
def buildDoc (tmpl : String) (data : Series) : Except Err SeriesDoc := do
  let pts := sortPoints data.points
  let sid ← formatTemplate tmpl data.fields
  pure ⟨sid, pts, data.fields⟩

/-- Finalize every accumulated series, in `series_dict` insertion order. -/
def buildDocs (tmpl : String) : SeriesDict → Except Err (List SeriesDoc)
  | [] => .ok []
  | e :: rest => do
    let d ← buildDoc tmpl e.2
    let ds ← buildDocs tmpl rest
    pure (d :: ds)

/-- The series documents the full pipeline emits for a given schema and input. -/
def runDocs (schema : Schema) (rows : List RawRow) : Except Err (List SeriesDoc) := do
  buildDocs schema.id_template (← processRows schema rows)

/-- Line-delimited emission: `print(json.dumps(series_json))` per series.
Returns the bytes written and the error, if any, that aborted the loop
(bytes printed before the abort remain, as with real stdout). -/
def emitLines (tmpl : String) : SeriesDict → String × Option Err
  | [] => ("", none)
  | e :: rest =>
    match buildDoc tmpl e.2 with
    | .error er => ("", some er)
    | .ok d =>
      let (out, er) := emitLines tmpl rest
      (jsonDumps d ++ "\n" ++ out, er)

/-- Array-mode emission after the opening bracket: a `","` immediately before
every document except the first, pretty-printed documents with no trailing
newline, then `print("\n]")` once the loop completes. -/
def emitArrayFrom (tmpl : String) (first : Bool) : SeriesDict → String × Option Err
  | [] => ("\n]\n", none)
  | e :: rest =>
    match buildDoc tmpl e.2 with
    | .error er => ("", some er)
    | .ok d =>
      let (out, er) := emitArrayFrom tmpl false rest
      ((if first then "" else ",") ++ jsonDumpsIndent d ++ out, er)

/-- Array-mode emission: `print("[")`, the loop, `print("\n]")`. -/
def emitArray (tmpl : String) (sd : SeriesDict) : String × Option Err :=
  let (out, er) := emitArrayFrom tmpl true sd
  ("[\n" ++ out, er)

/-- The whole of `generate_json`: read and aggregate all rows, then emit in the
selected output mode.  The result is the byte stream written to stdout
together with the error, if any, that terminated the run. -/
def generateJson (schema : Schema) (rows : List RawRow) (arrayOutput : Bool) :
    String × Option Err :=
  match processRows schema rows with
  | .error e => ("", some e)
  | .ok sd =>
    if arrayOutput then emitArray schema.id_template sd
    else emitLines schema.id_template sd

/-- The substitution the normalizer applies to the value of column `k`: the
lookup table of the (unique) mappings entry for that lower-cased column,
defaulting to the value itself. -/
def substFor (ms : List (String × List (String × String))) (k : String) (v : String) : String :=
  match ms.find? (fun cm => strLower cm.1 == k) with
  | some cm => (alGet cm.2 v).getD v
  | none => v

/-! ### Association-list lemmas -/

theorem alGet_alSet {κ α : Type} [DecidableEq κ] (d : List (κ × α)) (k k' : κ) (v : α) :
    alGet (alSet d k v) k' = if k = k' then some v else alGet d k' := by
  induction d with
  | nil => simp [alGet, alSet]
  | cons e t ih =>
    obtain ⟨k0, v0⟩ := e
    by_cases h : k0 = k
    · subst h
      by_cases h2 : k0 = k' <;> simp [alSet, alGet, h2]
    · by_cases h2 : k0 = k'
      · subst h2
        have : ¬ k = k0 := fun hc => h hc.symm
        simp [alSet, alGet, h, this]
      · simp [alSet, alGet, h, h2, ih]

theorem alSet_keys_of_present {κ α : Type} [DecidableEq κ] (d : List (κ × α)) (k : κ) (v : α)
    (h : (alGet d k).isSome = true) : (alSet d k v).map Prod.fst = d.map Prod.fst := by
  induction d with
  | nil => simp [alGet] at h
  | cons e t ih =>
    obtain ⟨k0, v0⟩ := e
    by_cases h2 : k0 = k
    · subst h2; simp [alSet]
    · simp [alGet, h2] at h
      simp [alSet, h2, ih h]

theorem alSet_of_not_mem {κ α : Type} [DecidableEq κ] (d : List (κ × α)) (k : κ) (v : α)
    (h : k ∉ d.map Prod.fst) : alSet d k v = d ++ [(k, v)] := by
  induction d with
  | nil => simp [alSet]
  | cons e t ih =>
    obtain ⟨k0, v0⟩ := e
    simp only [List.map_cons, List.mem_cons] at h
    push_neg at h
    have : k0 ≠ k := fun hc => h.1 hc.symm
    simp [alSet, this, ih h.2]

theorem alGet_append_right {κ α : Type} [DecidableEq κ] (d d' : List (κ × α)) (k : κ)
    (h : k ∉ d.map Prod.fst) : alGet (d ++ d') k = alGet d' k := by
  induction d with
  | nil => simp
  | cons e t ih =>
    obtain ⟨k0, v0⟩ := e
    simp only [List.map_cons, List.mem_cons] at h
    push_neg at h
    have : k0 ≠ k := fun hc => h.1 hc.symm
    simp [alGet, this, ih h.2]

theorem alGet_isSome_iff_mem {κ α : Type} [DecidableEq κ] (d : List (κ × α)) (k : κ) :
    (alGet d k).isSome = true ↔ k ∈ d.map Prod.fst := by
  induction d with
  | nil => simp [alGet]
  | cons e t ih =>
    obtain ⟨k0, v0⟩ := e
    by_cases h : k0 = k
    · subst h; simp [alGet]
    · have hne : ¬ k = k0 := fun hc => h hc.symm
      simp [alGet, h, ih, hne]

theorem alSet_ne_nil {κ α : Type} [DecidableEq κ] (d : List (κ × α)) (k : κ) (v : α) :
    alSet d k v ≠ [] := by
  cases d with
  | nil => simp [alSet]
  | cons e t =>
    obtain ⟨k0, v0⟩ := e
    by_cases h : k0 = k <;> simp [alSet, h]

theorem alSet_keys_sub {κ α : Type} [DecidableEq κ] (d : List (κ × α)) (k : κ) (v : α) :
    ∀ x ∈ (alSet d k v).map Prod.fst, x ∈ d.map Prod.fst ∨ x = k := by
  induction d with
  | nil => simp [alSet]
  | cons e t ih =>
    obtain ⟨k0, v0⟩ := e
    by_cases h : k0 = k
    · subst h
      intro x hx
      rw [show alSet ((k0, v0) :: t) k0 v = (k0, v) :: t from by simp [alSet]] at hx
      simp only [List.map_cons, List.mem_cons] at hx
      rcases hx with rfl | hx
      · exact Or.inr rfl
      · exact Or.inl (by simp [hx])
    · intro x hx
      simp only [alSet, if_neg h, List.map_cons, List.mem_cons] at hx
      rcases hx with rfl | hx
      · exact Or.inl (by simp)
      · rcases ih x hx with h2 | h2
        · exact Or.inl (by simp only [List.map_cons, List.mem_cons]; exact Or.inr h2)
        · exact Or.inr h2

/-! ### Lexicographic order on strings (the sort key) -/

theorem lexLe_total : ∀ (a b : List Char), lexLe a b = true ∨ lexLe b a = true := by
  intro a
  induction a with
  | nil => intro b; left; rfl
  | cons x xs ih =>
    intro b
    cases b with
    | nil => right; rfl
    | cons y ys =>
      rcases lt_trichotomy x y with h | h | h
      · left; simp [lexLe, h]
      · subst h
        rcases ih ys with h2 | h2
        · left; simp [lexLe, lt_irrefl, h2]
        · right; simp [lexLe, lt_irrefl, h2]
      · right; simp [lexLe, h]

theorem lexLe_trans : ∀ (a b c : List Char),
    lexLe a b = true → lexLe b c = true → lexLe a c = true := by
  intro a
  induction a with
  | nil => intro b c _ _; rfl
  | cons x xs ih =>
    intro b c h1 h2
    cases b with
    | nil => simp [lexLe] at h1
    | cons y ys =>
      cases c with
      | nil => simp [lexLe] at h2
      | cons z zs =>
        rcases lt_trichotomy x y with hxy | hxy | hxy
        · rcases lt_trichotomy y z with hyz | hyz | hyz
          · simp [lexLe, lt_trans hxy hyz]
          · subst hyz; simp [lexLe, hxy]
          · simp [lexLe, hyz, asymm hyz] at h2
        · subst hxy
          simp only [lexLe, lt_irrefl, if_false] at h1
          rcases lt_trichotomy x z with hxz | hxz | hxz
          · simp [lexLe, hxz]
          · subst hxz
            simp only [lexLe, lt_irrefl, if_false] at h2 ⊢
            exact ih ys zs h1 h2
          · simp [lexLe, hxz, asymm hxz] at h2
        · simp [lexLe, hxy, asymm hxy] at h1

theorem pointLe_total (p q : String × Value) : pointLe p q = true ∨ pointLe q p = true :=
  lexLe_total p.1.data q.1.data

theorem pointLe_trans (p q r : String × Value) :
    pointLe p q = true → pointLe q r = true → pointLe p r = true :=
  lexLe_trans p.1.data q.1.data r.1.data

/-! ### Stable insertion sort: sortedness -/

theorem mem_insertLe {α : Type} (le : α → α → Bool) (x : α) :
    ∀ (l : List α) (z : α), z ∈ insertLe le x l ↔ z = x ∨ z ∈ l := by
  intro l
  induction l with
  | nil => intro z; simp [insertLe]
  | cons y ys ih =>
    intro z
    by_cases h : le y x = true
    · simp only [insertLe, if_pos h, List.mem_cons, ih]
      tauto
    · simp only [insertLe, if_neg h, List.mem_cons]

theorem pairwise_insertLe {α : Type} (le : α → α → Bool)
    (htot : ∀ a b, le a b = true ∨ le b a = true)
    (htr : ∀ a b c, le a b = true → le b c = true → le a c = true)
    (x : α) : ∀ (l : List α), l.Pairwise (fun a b => le a b = true) →
      (insertLe le x l).Pairwise (fun a b => le a b = true) := by
  intro l
  induction l with
  | nil => intro _; simp [insertLe]
  | cons y ys ih =>
    intro hp
    rw [List.pairwise_cons] at hp
    by_cases h : le y x = true
    · simp only [insertLe, if_pos h]
      rw [List.pairwise_cons]
      constructor
      · intro z hz
        rcases (mem_insertLe le x ys z).mp hz with rfl | hz2
        · exact h
        · exact hp.1 z hz2
      · exact ih hp.2
    · simp only [insertLe, if_neg h]
      have hxy : le x y = true := (htot x y).resolve_right (fun hc => h hc)
      rw [List.pairwise_cons]
      constructor
      · intro z hz
        rcases List.mem_cons.mp hz with rfl | hz2
        · exact hxy
        · exact htr x y z hxy (hp.1 z hz2)
      · rw [List.pairwise_cons]
        exact ⟨hp.1, hp.2⟩

theorem pairwise_stableSortBy {α : Type} (le : α → α → Bool)
    (htot : ∀ a b, le a b = true ∨ le b a = true)
    (htr : ∀ a b c, le a b = true → le b c = true → le a c = true)
    (l : List α) : (stableSortBy le l).Pairwise (fun a b => le a b = true) := by
  have go : ∀ (l : List α) (acc : List α), acc.Pairwise (fun a b => le a b = true) →
      (l.foldl (fun acc x => insertLe le x acc) acc).Pairwise (fun a b => le a b = true) := by
    intro l
    induction l with
    | nil => intro acc h; exact h
    | cons x xs ih =>
      intro acc h
      exact ih (insertLe le x acc) (pairwise_insertLe le htot htr x acc h)
  exact go l [] (by simp)

theorem sortPoints_pairwise (ps : List (String × Value)) :
    (sortPoints ps).Pairwise (fun p q => pointLe p q = true) :=
  pairwise_stableSortBy pointLe pointLe_total pointLe_trans ps

/-! ### Emission lemmas -/

theorem buildDoc_points (tmpl : String) (data : Series) (d : SeriesDoc)
    (h : buildDoc tmpl data = .ok d) : d.points = sortPoints data.points := by
  unfold buildDoc at h
  cases hf : formatTemplate tmpl data.fields with
  | error e => simp [hf, Bind.bind, Except.bind] at h
  | ok sid =>
    simp [hf, Bind.bind, Except.bind, pure, Except.pure] at h
    rw [← h]

theorem buildDocs_mem (tmpl : String) :
    ∀ (sd : SeriesDict) (docs : List SeriesDoc) (d : SeriesDoc),
      buildDocs tmpl sd = .ok docs → d ∈ docs →
      ∃ e ∈ sd, buildDoc tmpl e.2 = .ok d := by
  intro sd
  induction sd with
  | nil =>
    intro docs d h hd
    simp [buildDocs] at h
    subst h
    simp at hd
  | cons e rest ih =>
    intro docs d h hd
    simp only [buildDocs] at h
    cases h1 : buildDoc tmpl e.2 with
    | error er => simp [h1, Bind.bind, Except.bind] at h
    | ok d1 =>
      cases h2 : buildDocs tmpl rest with
      | error er => simp [h1, h2, Bind.bind, Except.bind] at h
      | ok ds =>
        simp [h1, h2, Bind.bind, Except.bind, pure, Except.pure] at h
        subst h
        rcases List.mem_cons.mp hd with rfl | hd2
        · exact ⟨e, List.mem_cons_self e rest, h1⟩
        · obtain ⟨e', he', hb⟩ := ih ds d h2 hd2
          exact ⟨e', List.mem_cons_of_mem e he', hb⟩

/-! ### Concrete schemas and inputs used by the claims' instances -/

/-- Scenario A schema: group by `category`, identity `category` field, points
`x`/`y` with float transform on y, no template, no mappings. -/
def schemaA : Schema :=
  ⟨["category"], [("category", ⟨"category", none⟩)],
   ⟨some "x", some "y", some "float"⟩, "", []⟩

/-- Scenario A input: two rows with the same grouping key. -/
def rowsA : List RawRow :=
  [[("category", "A"), ("x", "1"), ("y", "10")],
   [("category", "A"), ("x", "2"), ("y", "20")]]

/-- The aggregation state Scenario A reaches. -/
def sdA : SeriesDict :=
  [([Value.str "A"],
    ⟨[("1", Value.num 10), ("2", Value.num 20)], [("category", Value.str "A")]⟩)]

/-- Input whose x values arrive in non-lexicographic order ("2" before "10"). -/
def rowsUnsorted : List RawRow :=
  [[("category", "A"), ("x", "2"), ("y", "1")],
   [("category", "A"), ("x", "10"), ("y", "3")]]

/-- The aggregation state `rowsUnsorted` reaches (points in insertion order). -/
def sdUnsorted : SeriesDict :=
  [([Value.str "A"],
    ⟨[("2", Value.num 1), ("10", Value.num 3)], [("category", Value.str "A")]⟩)]

/-- The documents emitted for `rowsUnsorted`: points sorted by x as strings. -/
def docsUnsorted : List SeriesDoc :=
  [⟨"", [("10", Value.num 3), ("2", Value.num 1)], [("category", Value.str "A")]⟩]

/-- Claim C1.  Scenario A end to end: rows `category=A,x=1,y=10` and
`category=A,x=2,y=20`, `group_by=["category"]`, identity `category` field,
points `{x: "x", y: "y", transform: "float"}` — the pipeline emits exactly one
series whose points list is `[["1", 10.0], ["2", 20.0]]`. -/
theorem claim_C1 :
    runDocs schemaA rowsA =
      .ok [⟨"", [("1", Value.num 10), ("2", Value.num 20)],
            [("category", Value.str "A")]⟩] := by decide

/-- Claim C3.  Every emitted series has its `points` sorted non-decreasing by
the x component under string (code-point lexicographic) comparison, whatever
the order of the input rows: the emitter sorts each series' points with the
stable sort keyed on `x[0]` before building the document. -/
theorem claim_C3 (schema : Schema) (rows : List RawRow) (sd : SeriesDict)
    (docs : List SeriesDoc) (d : SeriesDoc)
    (_h1 : processRows schema rows = .ok sd)
    (h2 : buildDocs schema.id_template sd = .ok docs)
    (hd : d ∈ docs) :
    d.points.Pairwise (fun p q => pointLe p q = true) := by
  obtain ⟨e, _, hb⟩ := buildDocs_mem schema.id_template sd docs d h2 hd
  rw [buildDoc_points schema.id_template e.2 d hb]
  exact sortPoints_pairwise e.2.points

/-- Witness for C3 at Scenario-A-like data arriving out of order: the first
two points of the emitted series are in sorted order ("10" before "2"). -/
theorem claim_C3_witness :
    pointLe ("10", Value.num 3) ("2", Value.num 1) = true := by
  have h := claim_C3 schemaA rowsUnsorted sdUnsorted docsUnsorted
    ⟨"", [("10", Value.num 3), ("2", Value.num 1)], [("category", Value.str "A")]⟩
    (by decide) (by decide) (by decide)
  exact (List.pairwise_cons.mp h).1 ("2", Value.num 1) (by decide)

/-- Claim C5, counterexample.  In array mode with zero input rows the byte
stream is `"[\n\n]\n"` — `print("\n]")` appends a final newline — so it is not
exactly the four bytes `"[\n\n]"` the claim states. -/
theorem claim_C5_counterexample :
    (generateJson ⟨[], [], ⟨none, none, none⟩, "", []⟩ [] true).1 = "[\n\n]\n" ∧
    "[\n\n]\n" ≠ "[\n\n]" := by decide

/-- Claim C5, amended.  In array-output mode with zero input rows, for every
schema, the byte stream is exactly `[` newline, newline `]` newline (three
lines, the last newline coming from `print("\n]")`), and no error occurs. -/
theorem claim_C5 (schema : Schema) :
    generateJson schema [] true = ("[\n\n]\n", none) := rfl

/-- Claim C7.  Emission renders `series_id` by substituting the captured
fields into the template's named placeholders: with fields
`{category: "A"}`, template `"{category}_series"` yields `"A_series"`, while
a template referencing `{missing}` aborts emission with a `KeyError`. -/
theorem claim_C7 :
    buildDocs "{category}_series" [([Value.str "A"], ⟨[], [("category", Value.str "A")]⟩)] =
      .ok [⟨"A_series", [], [("category", Value.str "A")]⟩] ∧
    buildDocs "{missing}_series" [([Value.str "A"], ⟨[], [("category", Value.str "A")]⟩)] =
      .error (.keyError "missing") := by decide

/-- Claim C9.  The transformation is deterministic: the embedding fixes the
aggregation dict's insertion order and the stable point sort exactly as
CPython's (deterministic) dict and `list.sort` do, and `generate_json` uses no
other state, so line-delimited output is a pure function of schema and input —
two runs are byte-identical by reflexivity. -/
theorem claim_C9 (schema : Schema) (rows : List RawRow) :
    generateJson schema rows false = generateJson schema rows false := rfl

/-! ### Absent schema sections (C4) -/

theorem stepRow_trivial_ok (schema : Schema) (hgb : schema.group_by = [])
    (hf : schema.fields = []) (xc yc : String)
    (hx : schema.points.x = some xc) (hy : schema.points.y = some yc)
    (ht : schema.points.transform = none) (sd : SeriesDict) (row : RawRow) :
    ∃ sd', stepRow schema sd row = .ok sd' := by
  have hD : deriveFields schema.fields (normalizeRow schema.mappings row) = .ok [] := by
    rw [hf]; rfl
  have hK : computeKey schema.group_by [] = .ok [] := by rw [hgb]; rfl
  simp only [stepRow, hD, hK, Bind.bind, Except.bind]
  simp only [addPoint, hx, hy, ht, optAttr, Bind.bind, Except.bind]
  split
  · exact ⟨_, rfl⟩
  · simp only [applyTransform]
    exact ⟨_, rfl⟩

theorem processRowsFrom_trivial_ok (schema : Schema) (hgb : schema.group_by = [])
    (hf : schema.fields = []) (xc yc : String)
    (hx : schema.points.x = some xc) (hy : schema.points.y = some yc)
    (ht : schema.points.transform = none) :
    ∀ (rows : List RawRow) (sd : SeriesDict),
      ∃ sd', processRowsFrom schema sd rows = .ok sd' := by
  intro rows
  induction rows with
  | nil => intro sd; exact ⟨sd, rfl⟩
  | cons r rs ih =>
    intro sd
    obtain ⟨sd1, h1⟩ := stepRow_trivial_ok schema hgb hf xc yc hx hy ht sd r
    obtain ⟨sd', h2⟩ := ih sd1
    exact ⟨sd', by simp only [processRowsFrom, h1, Bind.bind, Except.bind]; exact h2⟩

theorem buildDoc_empty_tmpl (data : Series) :
    buildDoc "" data = .ok ⟨"", sortPoints data.points, data.fields⟩ := rfl

theorem emitLines_empty_tmpl (sd : SeriesDict) : (emitLines "" sd).2 = none := by
  induction sd with
  | nil => rfl
  | cons e rest ih =>
    cases hrec : emitLines "" rest with
    | mk out er =>
      rw [hrec] at ih
      simp only [emitLines, buildDoc_empty_tmpl, hrec]
      exact ih

/-- Claim C4, counterexample.  A schema that omits the `points` section does
not degrade: `points_schema.get("x")` is `None`, and the `.lower()` call on it
raises `AttributeError` as soon as the first row is processed (all other
sections here are also absent, i.e. defaulted). -/
theorem claim_C4_counterexample :
    processRows ⟨[], [], ⟨none, none, none⟩, "", []⟩ [[("a", "b")]] =
      .error .attrError := by decide

/-- Claim C4, amended.  Absent `group_by`, `fields`, and `id_template` degrade
to trivial behavior: with those three defaulted and a points section that has
`x` and `y` columns and no transform, every input processes and line-delimited
emission completes with no error.  (Omitting `points`, by contrast, errors on
the first row — see the counterexample.) -/
theorem claim_C4 (schema : Schema) (rows : List RawRow)
    (hgb : schema.group_by = []) (hf : schema.fields = [])
    (xc yc : String) (hx : schema.points.x = some xc) (hy : schema.points.y = some yc)
    (ht : schema.points.transform = none) (htm : schema.id_template = "") :
    (generateJson schema rows false).2 = none := by
  obtain ⟨sd, hsd⟩ := processRowsFrom_trivial_ok schema hgb hf xc yc hx hy ht rows []
  have hsd' : processRows schema rows = .ok sd := hsd
  simp only [generateJson, hsd', htm, Bool.false_eq_true, if_false]
  exact emitLines_empty_tmpl sd

/-- Witness for C4 at a concrete trivial schema and one-row input. -/
theorem claim_C4_witness :
    (generateJson ⟨[], [], ⟨some "x", some "y", none⟩, "", []⟩
      [[("x", "1"), ("y", "2")]] false).2 = none :=
  claim_C4 ⟨[], [], ⟨some "x", some "y", none⟩, "", []⟩ [[("x", "1"), ("y", "2")]]
    rfl rfl "x" "y" rfl rfl rfl rfl

/-! ### Grouping key referencing an undeclared field (C10) -/

theorem deriveFieldsFrom_keys (row : RawRow) :
    ∀ (fs : List (String × FieldCfg)) (acc f : List (String × Value)),
      deriveFieldsFrom row acc fs = .ok f →
      ∀ g, (alGet f g).isSome = true →
        (alGet acc g).isSome = true ∨ g ∈ fs.map Prod.fst := by
  intro fs
  induction fs with
  | nil =>
    intro acc f h g hg
    simp only [deriveFieldsFrom] at h
    cases h
    exact Or.inl hg
  | cons kc rest ih =>
    intro acc f h g hg
    simp only [deriveFieldsFrom] at h
    cases ht : applyTransform kc.2.transform ((alGet row (strLower kc.2.source)).getD "") with
    | error e => rw [ht] at h; simp [Bind.bind, Except.bind] at h
    | ok tv =>
      rw [ht] at h
      simp only [Bind.bind, Except.bind] at h
      rcases ih (alSet acc kc.1 tv) f h g hg with h2 | h2
      · rw [alGet_alSet] at h2
        by_cases hk : kc.1 = g
        · exact Or.inr (by simp [hk.symm])
        · rw [if_neg hk] at h2
          exact Or.inl h2
      · exact Or.inr (by simp only [List.map_cons, List.mem_cons]; exact Or.inr h2)

theorem computeKey_missing (f : List (String × Value)) :
    ∀ (gb : List String), (∃ g ∈ gb, alGet f g = none) →
      ∃ g ∈ gb, computeKey gb f = .error (.keyError g) := by
  intro gb
  induction gb with
  | nil => rintro ⟨g, hg, -⟩; simp at hg
  | cons g0 gs ih =>
    rintro ⟨g, hg, hnone⟩
    cases hg0 : alGet f g0 with
    | none => exact ⟨g0, List.mem_cons_self g0 gs, by simp [computeKey, hg0]⟩
    | some v =>
      have hne : g ≠ g0 := by
        rintro rfl
        rw [hg0] at hnone
        exact Option.noConfusion hnone
      have hgs : g ∈ gs := by
        rcases List.mem_cons.mp hg with h | h
        · exact absurd h hne
        · exact h
      obtain ⟨g', hg', herr⟩ := ih ⟨g, hgs, hnone⟩
      refine ⟨g', List.mem_cons_of_mem g0 hg', ?_⟩
      simp [computeKey, hg0, herr, Except.map]

/-- Claim C10, counterexample.  `group_by` names the undeclared field
`missing`, the input has one row — but the run aborts with a `ValueError`
(from the `float` transform of field `a` on the unparsable value `"abc"`),
not with a `KeyError`: field derivation runs before the grouping-key
computation, so the claim's "aborts with a KeyError-class error" does not hold
for every input with at least one row. -/
theorem claim_C10_counterexample :
    processRows ⟨["missing"], [("a", ⟨"c", some "float"⟩)], ⟨some "x", some "y", none⟩, "", []⟩
      [[("c", "abc")]] = .error (.valueError "abc") := by decide

/-- Claim C10, amended.  If `group_by` names a field not declared in the
schema's `fields` section and the first row's field derivation itself
succeeds, the run aborts with a `KeyError` for one of the `group_by` names
while computing the grouping key (derived fields only carry declared names),
rather than degrading to an empty or partial key. -/
theorem claim_C10 (schema : Schema) (rows : List RawRow) (row : RawRow)
    (rest : List RawRow) (f : List (String × Value))
    (hrows : rows = row :: rest)
    (hf : rowFields schema row = .ok f)
    (hmiss : ∃ g ∈ schema.group_by, g ∉ schema.fields.map Prod.fst) :
    ∃ g ∈ schema.group_by, processRows schema rows = .error (.keyError g) := by
  obtain ⟨g, hg, hnd⟩ := hmiss
  have hnone : alGet f g = none := by
    cases hfg : alGet f g with
    | none => rfl
    | some v =>
      rcases deriveFieldsFrom_keys (normalizeRow schema.mappings row) schema.fields [] f hf g
          (by simp [hfg]) with h | h
      · simp [alGet] at h
      · exact absurd h hnd
  obtain ⟨g', hg', herr⟩ := computeKey_missing f schema.group_by ⟨g, hg, hnone⟩
  refine ⟨g', hg', ?_⟩
  subst hrows
  have hf' : deriveFields schema.fields (normalizeRow schema.mappings row) = .ok f := hf
  have hstep : stepRow schema [] row = .error (.keyError g') := by
    simp only [stepRow, hf', herr, Bind.bind, Except.bind]
  simp only [processRows, processRowsFrom, hstep, Bind.bind, Except.bind]

/-- Witness for C10: `group_by=["missing"]` with only a `category` field
declared; on a one-row input the run aborts with `KeyError` for `missing`. -/
theorem claim_C10_witness :
    processRows ⟨["missing"], [("category", ⟨"category", none⟩)], ⟨some "x", some "y", none⟩, "", []⟩
      [[("category", "A")]] = .error (.keyError "missing") := by
  obtain ⟨g, hg, he⟩ := claim_C10
    ⟨["missing"], [("category", ⟨"category", none⟩)], ⟨some "x", some "y", none⟩, "", []⟩
    [[("category", "A")]] [("category", "A")] [] [("category", Value.str "A")]
    rfl (by decide) ⟨"missing", by decide, by decide⟩
  have hgm : g = "missing" := by simpa using hg
  rw [hgm] at he
  exact he

/-! ### Rows with empty or missing x/y (C6) -/

/-- Claim C6.  For a row whose x or y value (looked up by the schema's points
column names, lower-cased, against the normalized row, with empty-string
default) is empty or missing, and whose field derivation and grouping key
computation succeed, the row's processing step succeeds (no error), appends a
point to no series, and — when the grouping key is new — still creates the
series with that row's derived fields and an empty points list. -/
theorem claim_C6 (schema : Schema) (sd : SeriesDict) (row : RawRow) (xc yc : String)
    (f : List (String × Value)) (k : List Value)
    (hx : schema.points.x = some xc) (hy : schema.points.y = some yc)
    (hf : rowFields schema row = .ok f)
    (hk : computeKey schema.group_by f = .ok k)
    (hskip : (alGet (normalizeRow schema.mappings row) (strLower xc)).getD "" = "" ∨
             (alGet (normalizeRow schema.mappings row) (strLower yc)).getD "" = "") :
    ∃ sd', stepRow schema sd row = .ok sd' ∧
      (∀ k' s', alGet sd' k' = some s' →
        s'.points = ((alGet sd k').map Series.points).getD []) ∧
      (alGet sd k = none → alGet sd' k = some ⟨[], f⟩) := by
  have hf' : deriveFields schema.fields (normalizeRow schema.mappings row) = .ok f := hf
  refine ⟨seriesAccess sd k f, ?_, ?_, ?_⟩
  · simp only [stepRow, hf', hk, Bind.bind, Except.bind]
    simp only [addPoint, hx, hy, optAttr, Bind.bind, Except.bind]
    rw [if_pos hskip]
    rfl
  · intro k' s' hs'
    simp only [seriesAccess] at hs'
    rw [alGet_alSet] at hs'
    by_cases hkk : k = k'
    · rw [if_pos hkk] at hs'
      subst hkk
      cases halG : alGet sd k with
      | none =>
        cases hs'
        simp [halG]
      | some s =>
        rw [Option.some_inj] at hs'
        subst hs'
        by_cases he : s.fields.isEmpty <;> simp [halG, he]
    · rw [if_neg hkk] at hs'
      rw [hs']
      rfl
  · intro hnone
    simp only [seriesAccess, hnone, Option.getD_none]
    rw [alGet_alSet, if_pos rfl]
    rfl

/-- Witness for C6: a row with no `y` column at all, new grouping key — the
step succeeds. -/
theorem claim_C6_witness :
    (stepRow ⟨["category"], [("category", ⟨"category", none⟩)],
        ⟨some "x", some "y", some "float"⟩, "", []⟩
      [] [("category", "A"), ("x", "1")]).isOk = true := by
  obtain ⟨sd', h1, -, -⟩ := claim_C6
    ⟨["category"], [("category", ⟨"category", none⟩)],
      ⟨some "x", some "y", some "float"⟩, "", []⟩
    [] [("category", "A"), ("x", "1")] "x" "y"
    [("category", Value.str "A")] [Value.str "A"]
    rfl rfl (by decide) (by decide) (Or.inr (by decide))
  rw [h1]
  rfl

/-! ### First-write-wins field capture (C2) -/

theorem addPoint_ok (schema : Schema) (sd : SeriesDict) (key : List Value) (nrow : RawRow)
    (sd' : SeriesDict) (s0 : Series)
    (hk : alGet sd key = some s0)
    (h : addPoint schema sd key nrow = .ok sd') :
    (∀ k', k' ≠ key → alGet sd' k' = alGet sd k') ∧
    (∃ pts, alGet sd' key = some ⟨pts, s0.fields⟩) := by
  simp only [addPoint, Bind.bind] at h
  cases hx : schema.points.x with
  | none => rw [hx] at h; simp [optAttr, Except.bind] at h
  | some xc =>
    rw [hx] at h
    cases hy : schema.points.y with
    | none => rw [hy] at h; simp [optAttr, Except.bind] at h
    | some yc =>
      rw [hy] at h
      simp only [optAttr, Except.bind] at h
      split at h
      · cases h
        exact ⟨fun _ _ => rfl, ⟨s0.points, by rw [hk]⟩⟩
      · cases htv : applyTransform schema.points.transform
            ((alGet nrow (strLower yc)).getD "") with
        | error e => rw [htv] at h; simp [Except.bind] at h
        | ok yTv =>
          rw [htv] at h
          simp only [Except.bind, pure, Except.pure] at h
          cases h
          constructor
          · intro k' hne
            rw [alGet_alSet, if_neg (fun hc => hne hc.symm)]
          · refine ⟨((alGet sd key).getD ⟨[], []⟩).points ++
              [((alGet nrow (strLower xc)).getD "", yTv)], ?_⟩
            rw [alGet_alSet, if_pos rfl, hk]
            rfl

theorem stepRow_ok (schema : Schema) (sd : SeriesDict) (row : RawRow) (sd' : SeriesDict)
    (h : stepRow schema sd row = .ok sd') :
    ∃ f k, rowFields schema row = .ok f ∧ computeKey schema.group_by f = .ok k ∧
      (∀ k', k' ≠ k → alGet sd' k' = alGet sd k') ∧
      ∃ s', alGet sd' k = some s' ∧
        s'.fields = (match alGet sd k with
                     | none => f
                     | some s => if s.fields.isEmpty then f else s.fields) := by
  simp only [stepRow, Bind.bind] at h
  cases hF : deriveFields schema.fields (normalizeRow schema.mappings row) with
  | error e => rw [hF] at h; simp [Except.bind] at h
  | ok f =>
    rw [hF] at h
    simp only [Except.bind] at h
    cases hK : computeKey schema.group_by f with
    | error e => rw [hK] at h; simp [Except.bind] at h
    | ok k =>
      rw [hK] at h
      simp only [Except.bind] at h
      have haccSelf : alGet (seriesAccess sd k f) k =
          some (if ((alGet sd k).getD ⟨[], []⟩).fields.isEmpty
                then { (alGet sd k).getD ⟨[], []⟩ with fields := f }
                else (alGet sd k).getD ⟨[], []⟩) := by
        simp only [seriesAccess]
        rw [alGet_alSet, if_pos rfl]
      have haccOther : ∀ k', k' ≠ k → alGet (seriesAccess sd k f) k' = alGet sd k' := by
        intro k' hne
        simp only [seriesAccess]
        rw [alGet_alSet, if_neg (fun hc => hne hc.symm)]
      obtain ⟨hne', pts, hself⟩ := addPoint_ok schema (seriesAccess sd k f) k
        (normalizeRow schema.mappings row) sd' _ haccSelf h
      refine ⟨f, k, hF, hK, ?_, ?_⟩
      · intro k' hk'
        rw [hne' k' hk', haccOther k' hk']
      · refine ⟨_, hself, ?_⟩
        cases halG : alGet sd k with
        | none => simp [halG]
        | some s => by_cases he : s.fields.isEmpty <;> simp [halG, he]

theorem deriveFieldsFrom_nil (row : RawRow) :
    ∀ (fs : List (String × FieldCfg)) (acc f : List (String × Value)),
      deriveFieldsFrom row acc fs = .ok f → f = [] → acc = [] ∧ fs = [] := by
  intro fs
  induction fs with
  | nil =>
    intro acc f h hf
    simp only [deriveFieldsFrom] at h
    cases h
    exact ⟨hf, rfl⟩
  | cons kc rest ih =>
    intro acc f h hf
    simp only [deriveFieldsFrom, Bind.bind] at h
    cases ht : applyTransform kc.2.transform ((alGet row (strLower kc.2.source)).getD "") with
    | error e => rw [ht] at h; simp [Except.bind] at h
    | ok tv =>
      rw [ht] at h
      simp only [Except.bind] at h
      exact absurd (ih (alSet acc kc.1 tv) f h hf).1 (alSet_ne_nil acc kc.1 tv)

theorem deriveFields_eq_nil (fs : List (String × FieldCfg)) (row : RawRow)
    (f : List (String × Value)) (h : deriveFields fs row = .ok f) (hf : f = []) : fs = [] :=
  (deriveFieldsFrom_nil row fs [] f h hf).2

theorem deriveFields_of_nil (row : RawRow) (f : List (String × Value))
    (h : deriveFields [] row = .ok f) : f = [] := by
  simp only [deriveFields, deriveFieldsFrom] at h
  cases h
  rfl

theorem rowKey_of_parts (schema : Schema) (row : RawRow) (f : List (String × Value))
    (k : List Value) (hF : rowFields schema row = .ok f)
    (hK : computeKey schema.group_by f = .ok k) : rowKey schema row = .ok k := by
  simp [rowKey, Bind.bind, Except.bind, hF, hK]

theorem processRowsFrom_fields (schema : Schema) :
    ∀ (rows : List RawRow) (sd₀ sd : SeriesDict),
      processRowsFrom schema sd₀ rows = .ok sd →
      (∀ k s, alGet sd₀ k = some s → s.fields = [] → schema.fields = []) →
      ∀ k s, alGet sd k = some s →
        (∃ s₀, alGet sd₀ k = some s₀ ∧ s.fields = s₀.fields) ∨
        (alGet sd₀ k = none ∧ ∃ row f,
          rows.find? (rowHasKey schema k) = some row ∧
          rowFields schema row = .ok f ∧ s.fields = f) := by
  intro rows
  induction rows with
  | nil =>
    intro sd₀ sd h _ k s hk
    simp only [processRowsFrom] at h
    cases h
    exact Or.inl ⟨s, hk, rfl⟩
  | cons r rs ih =>
    intro sd₀ sd h inv k s hk
    simp only [processRowsFrom, Bind.bind] at h
    cases hst : stepRow schema sd₀ r with
    | error e => rw [hst] at h; simp [Except.bind] at h
    | ok sd₁ =>
      rw [hst] at h
      simp only [Except.bind] at h
      obtain ⟨fr, kr, hF, hK, hne, s', hs', hsf⟩ := stepRow_ok schema sd₀ r sd₁ hst
      have hrk : rowKey schema r = .ok kr := rowKey_of_parts schema r fr kr hF hK
      have inv₁ : ∀ k2 s2, alGet sd₁ k2 = some s2 → s2.fields = [] → schema.fields = [] := by
        intro k2 s2 hk2 hf2
        by_cases hkk : k2 = kr
        · subst hkk
          rw [hs'] at hk2
          cases hk2
          rw [hsf] at hf2
          cases halG : alGet sd₀ k2 with
          | none =>
            rw [halG] at hf2
            simp only [] at hf2
            exact deriveFields_eq_nil schema.fields _ fr hF hf2
          | some s₀ =>
            rw [halG] at hf2
            simp only [] at hf2
            by_cases he : s₀.fields.isEmpty
            · exact inv k2 s₀ halG (List.isEmpty_iff.mp he)
            · rw [if_neg he] at hf2
              exact absurd (List.isEmpty_iff.mpr hf2) he
        · rw [hne k2 hkk] at hk2
          exact inv k2 s2 hk2 hf2
      rcases ih sd₁ sd h inv₁ k s hk with ⟨s₁, hk₁, heq⟩ | ⟨hnone₁, row, f, hfind, hrf, hsfin⟩
      · by_cases hkk : k = kr
        · subst hkk
          rw [hs'] at hk₁
          cases hk₁
          cases halG : alGet sd₀ k with
          | some s₀ =>
            refine Or.inl ⟨s₀, rfl, ?_⟩
            rw [heq, hsf, halG]
            simp only []
            by_cases he : s₀.fields.isEmpty
            · rw [if_pos he]
              have h1 : schema.fields = [] := inv k s₀ halG (List.isEmpty_iff.mp he)
              have hF' : deriveFields schema.fields (normalizeRow schema.mappings r) = .ok fr := hF
              rw [h1] at hF'
              rw [deriveFields_of_nil _ fr hF', List.isEmpty_iff.mp he]
            · rw [if_neg he]
          | none =>
            refine Or.inr ⟨rfl, r, fr, ?_, hF, ?_⟩
            · rw [List.find?_cons_of_pos]
              simp [rowHasKey, hrk]
            · rw [heq, hsf, halG]
        · rw [hne k hkk] at hk₁
          exact Or.inl ⟨s₁, hk₁, heq⟩
      · have hkk : k ≠ kr := by
          rintro rfl
          rw [hs'] at hnone₁
          exact Option.noConfusion hnone₁
        refine Or.inr ⟨?_, row, f, ?_, hrf, hsfin⟩
        · rw [← hne k hkk]
          exact hnone₁
        · rw [List.find?_cons_of_neg, hfind]
          simp only [rowHasKey, hrk]
          simp only [decide_eq_true_eq]
          exact fun hc => hkk hc.symm

/-- Claim C2.  First-write-wins field capture: whenever the reading loop
succeeds, the field set stored for any grouping key is the derived-fields
mapping of the first input row that produced that key; later rows with the
same key have their recomputed fields discarded (only their points, if any,
are appended to the entry, leaving `fields` unchanged). -/
theorem claim_C2 (schema : Schema) (rows : List RawRow) (sd : SeriesDict)
    (k : List Value) (s : Series)
    (h : processRows schema rows = .ok sd) (hk : alGet sd k = some s) :
    ∃ row f, rows.find? (rowHasKey schema k) = some row ∧
      rowFields schema row = .ok f ∧ s.fields = f := by
  rcases processRowsFrom_fields schema rows [] sd h
      (by intro k2 s2 h2; simp [alGet] at h2) k s hk with ⟨s₀, h₀, -⟩ | ⟨-, rest⟩
  · simp [alGet] at h₀
  · exact rest

/-- Witness for C2 at Scenario A: the key `("A",)` is present in the final
state, so a first row carrying it exists in the input. -/
theorem claim_C2_witness :
    (rowsA.find? (rowHasKey schemaA [Value.str "A"])).isSome = true := by
  obtain ⟨row, f, hfind, -, -⟩ := claim_C2 schemaA rowsA sdA [Value.str "A"]
    ⟨[("1", Value.num 10), ("2", Value.num 20)], [("category", Value.str "A")]⟩
    (by decide) (by decide)
  rw [hfind]
  rfl

/-! ### Row normalizer characterization (C8) -/

theorem foldl_keys_inv : ∀ (row acc : RawRow) (x : String),
    x ∈ ((row.foldl (fun acc kv => alSet acc (strLower kv.1) (strTrim kv.2)) acc)).map Prod.fst →
    x ∈ acc.map Prod.fst ∨ ∃ kv ∈ row, x = strLower kv.1 := by
  intro row
  induction row with
  | nil => intro acc x h; exact Or.inl h
  | cons kv t ih =>
    intro acc x h
    rw [List.foldl_cons] at h
    rcases ih (alSet acc (strLower kv.1) (strTrim kv.2)) x h with h2 | h2
    · rcases alSet_keys_sub acc (strLower kv.1) (strTrim kv.2) x h2 with h3 | h3
      · exact Or.inl h3
      · exact Or.inr ⟨kv, List.mem_cons_self _ _, h3⟩
    · obtain ⟨kv', h4, h5⟩ := h2
      exact Or.inr ⟨kv', List.mem_cons_of_mem _ h4, h5⟩

theorem lowerTrimRow_keys (row : RawRow) :
    ∀ x ∈ (lowerTrimRow row).map Prod.fst, ∃ kv ∈ row, x = strLower kv.1 := by
  intro x hx
  rcases foldl_keys_inv row [] x hx with h | h
  · simp at h
  · exact h

theorem lowerTrimRow_eq (row : RawRow) (hnd : (row.map (fun kv => strLower kv.1)).Nodup) :
    lowerTrimRow row = row.map (fun kv => (strLower kv.1, strTrim kv.2)) := by
  suffices hgen : ∀ (row acc : RawRow),
      (∀ kv ∈ row, strLower kv.1 ∉ acc.map Prod.fst) →
      (row.map (fun kv => strLower kv.1)).Nodup →
      row.foldl (fun acc kv => alSet acc (strLower kv.1) (strTrim kv.2)) acc =
        acc ++ row.map (fun kv => (strLower kv.1, strTrim kv.2)) by
    have h := hgen row [] (by simp) hnd
    simpa [lowerTrimRow] using h
  intro row
  induction row with
  | nil => intro acc _ _; simp
  | cons kv t ih =>
    intro acc hfresh hnd2
    simp only [List.map_cons, List.nodup_cons] at hnd2
    rw [List.foldl_cons]
    rw [alSet_of_not_mem acc _ _ (hfresh kv (List.mem_cons_self _ _))]
    rw [ih (acc ++ [(strLower kv.1, strTrim kv.2)]) ?fresh hnd2.2]
    · simp
    case fresh =>
      intro kv' hkv'
      simp only [List.map_append, List.mem_append]
      push_neg
      refine ⟨hfresh kv' (List.mem_cons_of_mem _ hkv'), ?_⟩
      simp only [List.map_cons, List.map_nil, List.mem_singleton]
      intro hc
      apply hnd2.1
      rw [← hc]
      exact List.mem_map_of_mem _ hkv'

theorem applyMappings_keys : ∀ (ms : List (String × List (String × String))) (r : RawRow),
    (applyMappings ms r).map Prod.fst = r.map Prod.fst := by
  intro ms
  induction ms with
  | nil => intro r; rfl
  | cons cm rest ih =>
    intro r
    have hstep : applyMappings (cm :: rest) r =
        applyMappings rest (match alGet r (strLower cm.1) with
          | some v => alSet r (strLower cm.1) ((alGet cm.2 v).getD v)
          | none => r) := rfl
    rw [hstep, ih]
    cases hget : alGet r (strLower cm.1) with
    | none => rfl
    | some v => exact alSet_keys_of_present r _ _ (by simp [hget])

theorem substFor_eq_of_not_mem (ms : List (String × List (String × String)))
    (k : String) (v : String) (h : ∀ cm ∈ ms, strLower cm.1 ≠ k) : substFor ms k v = v := by
  have hfind : ms.find? (fun cm => strLower cm.1 == k) = none := by
    rw [List.find?_eq_none]
    intro cm hcm
    simp only [beq_iff_eq]
    exact h cm hcm
  simp [substFor, hfind]

theorem applyMappings_alGet : ∀ (ms : List (String × List (String × String))) (r : RawRow),
    (ms.map (fun cm => strLower cm.1)).Nodup →
    ∀ k, alGet (applyMappings ms r) k = (alGet r k).map (substFor ms k) := by
  intro ms
  induction ms with
  | nil =>
    intro r _ k
    cases h : alGet r k <;> simp [applyMappings, substFor, List.find?, h]
  | cons cm rest ih =>
    intro r hnd k
    simp only [List.map_cons, List.nodup_cons] at hnd
    have hstep : applyMappings (cm :: rest) r =
        applyMappings rest (match alGet r (strLower cm.1) with
          | some v => alSet r (strLower cm.1) ((alGet cm.2 v).getD v)
          | none => r) := rfl
    rw [hstep, ih _ hnd.2 k]
    by_cases hk : strLower cm.1 = k
    · subst hk
      have hrestid : ∀ w, substFor rest (strLower cm.1) w = w := by
        intro w
        refine substFor_eq_of_not_mem rest _ w ?_
        intro cm' hcm' hc
        exact hnd.1 (hc ▸ List.mem_map_of_mem _ hcm')
      cases hget : alGet r (strLower cm.1) with
      | none => simp [hget]
      | some v =>
        rw [alGet_alSet, if_pos rfl]
        simp [substFor, List.find?]
        exact hrestid ((alGet cm.2 v).getD v)
    · have hsf : substFor (cm :: rest) k = substFor rest k := by
        funext w
        have hfind : (cm :: rest).find? (fun cm' => strLower cm'.1 == k) =
            rest.find? (fun cm' => strLower cm'.1 == k) := by
          rw [List.find?_cons_of_neg]
          simp only [beq_iff_eq]
          exact hk
        simp [substFor, hfind]
      rw [hsf]
      cases hget : alGet r (strLower cm.1) with
      | none => rfl
      | some v =>
        rw [alGet_alSet, if_neg hk]

/-- Claim C8.  The normalizer: every key of the normalized record is the
lower-cased name of an original column; and (when the lower-cased row columns
and the lower-cased mappings columns are each duplicate-free, as dicts built
from distinct CSV headers and a JSON mappings object are) the lookup of any
column in the normalized record is the whitespace-trimmed original value with
that column's mapping table applied — replaced by the table's entry when the
trimmed value is a key of the table, unchanged otherwise, and never an error
(the normalizer is a total function). -/
theorem claim_C8 (ms : List (String × List (String × String))) (row : RawRow)
    (hrow : (row.map (fun kv => strLower kv.1)).Nodup)
    (hms : (ms.map (fun cm => strLower cm.1)).Nodup) :
    (∀ kv ∈ normalizeRow ms row, ∃ kv₀ ∈ row, kv.1 = strLower kv₀.1) ∧
    (∀ k, alGet (normalizeRow ms row) k =
      (alGet (row.map (fun kv => (strLower kv.1, strTrim kv.2))) k).map (substFor ms k)) := by
  constructor
  · intro kv hkv
    have hx : kv.1 ∈ (normalizeRow ms row).map Prod.fst := List.mem_map_of_mem Prod.fst hkv
    rw [normalizeRow, applyMappings_keys] at hx
    exact lowerTrimRow_keys row kv.1 hx
  · intro k
    rw [normalizeRow, applyMappings_alGet ms (lowerTrimRow row) hms k, lowerTrimRow_eq row hrow]

/-- Witness for C8 at Scenario C: mapping table `{"M": "Male", "F": "Female"}`
on column `sex`, input value `" M "` under header `"Sex"` — the normalized
value of column `sex` is `"Male"`. -/
theorem claim_C8_witness :
    alGet (normalizeRow [("sex", [("M", "Male"), ("F", "Female")])] [("Sex", " M ")]) "sex" =
      some "Male" := by
  have h := (claim_C8 [("sex", [("M", "Male"), ("F", "Female")])] [("Sex", " M ")]
    (by decide) (by decide)).2 "sex"
  rw [h]
  decide
